import Mathlib

/-!
# Verification of `mylib::Calculator`

Shallow embedding of `mylib/include/mylib/Calculator.hpp` and
`mylib/src/Calculator.cpp`.

The C++ type `double` is modelled by `F64`, the IEEE-754 binary64 format with
its arithmetic in the default rounding mode (round to nearest, ties to even).
All NaN bit patterns are identified with the single value `F64.nan`; every
other value of `F64` corresponds to exactly one binary64 bit pattern.

Every finite binary64 number is an integer multiple of `2^-1074`, so the exact
sum, product and quotient of two of them are computed with integers counted in
that unit and rounded once by `F64.roundNE`.  The theorems `roundNE_nearest`,
`roundNE_eq_inf_iff` and `roundNE_mag` state that this rounding returns a
nearest representable number, the even one on a tie, overflows from the
midpoint above the largest finite number on, and is exact on representable
numbers; `toRat_eq_units` relates the integer unit to the value formula of the
standard.
-/

namespace mylib

/-! ## IEEE-754 binary64 -/

/-- A binary64 value.  `fin neg expo frac` is the finite number with sign bit
`neg`, biased exponent field `expo` (0 to 2046) and 52-bit fraction field
`frac`; the exponent field 2047 is split into `inf` and `nan`. -/
inductive F64 where
  | nan : F64
  | inf (neg : Bool) : F64
  | fin (neg : Bool) (expo : Fin 2047) (frac : Fin (2 ^ 52)) : F64
deriving DecidableEq

namespace F64

/-- Magnitude of a finite binary64 value counted in units of `2^-1074` (the
smallest subnormal).  Subnormals (`expo = 0`) are `frac` units; normals are
`(2^52 + frac) * 2^(expo - 1)` units. -/
def mag (expo frac : Nat) : Nat :=
  if expo = 0 then frac else (2 ^ 52 + frac) * 2 ^ (expo - 1)

/-- Signed value of a finite binary64 number in units of `2^-1074`. -/
def units (neg : Bool) (expo frac : Nat) : Int :=
  if neg then -(mag expo frac : Int) else (mag expo frac : Int)

/-- Decode the 63 low bits `o` (exponent and fraction fields read as one
number) with sign `neg`; anything at or beyond the infinity pattern overflows
to infinity. -/
def ofOrdinal (neg : Bool) (o : Nat) : F64 :=
  if h : o < 2047 * 2 ^ 52 then
    fin neg ⟨o / 2 ^ 52, by
      have h2 : o < 2 ^ 52 * 2047 := by omega
      exact Nat.div_lt_of_lt_mul h2⟩
      ⟨o % 2 ^ 52, Nat.mod_lt _ (by decide)⟩
  else inf neg

/-- Auxiliary for `ilog2`: at most `fuel` steps, each dropping one low bit,
or 64 low bits at once while the number has more than 64 bits. -/
def ilog2Aux : Nat → Nat → Nat
  | 0, _ => 0
  | fuel + 1, n =>
    if n < 2 then 0
    else if n < 2 ^ 64 then ilog2Aux fuel (n / 2) + 1
    else ilog2Aux fuel (n / 2 ^ 64) + 64

/-- Position of the leading one bit of `n`, that is `⌊log₂ n⌋` (and `0` for
`n = 0`). -/
def ilog2 (n : Nat) : Nat := ilog2Aux n n

/-- Binary exponent of the rounding step for the non-negative rational
`p / q` (in units of `2^-1074`): the step is `2^k` units with `k = 0` below
`2^53` units (subnormals and the first binade of normals) and
`k = ⌊log₂ (p / q)⌋ - 52` above, so that `p / q` has 53 significant bits at
that step. -/
def quantum (p q : Nat) : Nat :=
  let n := p / q
  if n < 2 ^ 53 then 0 else ilog2 n - 52

/-- The integer nearest to the rational `p / d`, ties going to the even one. -/
def nearestEven (p d : Nat) : Nat :=
  let m0 := p / d
  let r := p % d
  if 2 * r < d then m0
  else if d < 2 * r then m0 + 1
  else if m0 % 2 = 0 then m0 else m0 + 1

/-- Round the non-negative rational `p / q`, given in units of `2^-1074`, to
binary64 with sign `neg`: round to nearest, ties to even, overflow to
infinity.  Requires `0 < q`.  The significand `m` is `p / q` counted in steps
of `2^k` units and rounded to an integer; the exponent and fraction fields are
then read off `k * 2^52 + m`, which also covers the carry `m = 2^53` into the
next binade. -/
def roundNE (neg : Bool) (p q : Nat) : F64 :=
  let k := quantum p q
  ofOrdinal neg (k * 2 ^ 52 + nearestEven p (q * 2 ^ k))

/-- The C++ unary minus on `double`. -/
def fneg : F64 → F64
  | nan => nan
  | inf s => inf (!s)
  | fin s e f => fin (!s) e f

/-- The function `std::abs(double)`. -/
def fabs : F64 → F64
  | nan => nan
  | inf _ => inf false
  | fin _ e f => fin false e f

/-- The C++ operator `<` on `double`. -/
def flt : F64 → F64 → Bool
  | nan, _ => false
  | _, nan => false
  | inf s, inf t => s && !t
  | inf s, fin _ _ _ => s
  | fin _ _ _, inf t => !t
  | fin s e f, fin t g h => decide (units s e f < units t g h)

/-- The C++ operator `==` on `double`. -/
def feq : F64 → F64 → Bool
  | nan, _ => false
  | _, nan => false
  | inf s, inf t => s == t
  | inf _, fin _ _ _ => false
  | fin _ _ _, inf _ => false
  | fin s e f, fin t g h => decide (units s e f = units t g h)

/-- The C++ operator `>=` on `double`. -/
def fge (a b : F64) : Bool := flt b a || feq a b

/-- The C++ operator `+` on `double`. -/
def fadd : F64 → F64 → F64
  | nan, _ => nan
  | _, nan => nan
  | inf s, inf t => if s = t then inf s else nan
  | inf s, fin _ _ _ => inf s
  | fin _ _ _, inf t => inf t
  | fin s e f, fin t g h =>
    let n := units s e f + units t g h
    if n = 0 then fin (s && t) 0 0
    else roundNE (decide (n < 0)) n.natAbs 1

/-- The C++ operator `-` on `double`. -/
def fsub (a b : F64) : F64 := fadd a (fneg b)

/-- The C++ operator `*` on `double`. -/
def fmul : F64 → F64 → F64
  | nan, _ => nan
  | _, nan => nan
  | inf s, inf t => inf (xor s t)
  | inf s, fin t g h => if mag g h = 0 then nan else inf (xor s t)
  | fin s e f, inf t => if mag e f = 0 then nan else inf (xor s t)
  | fin s e f, fin t g h => roundNE (xor s t) (mag e f * mag g h) (2 ^ 1074)

/-- The C++ operator `/` on `double`. -/
def fdiv : F64 → F64 → F64
  | nan, _ => nan
  | _, nan => nan
  | inf _, inf _ => nan
  | inf s, fin t _ _ => inf (xor s t)
  | fin s _ _, inf t => fin (xor s t) 0 0
  | fin s e f, fin t g h =>
    if mag g h = 0 then
      if mag e f = 0 then nan else inf (xor s t)
    else roundNE (xor s t) (mag e f * 2 ^ 1074) (mag g h)

/-- Decode a 64-bit pattern: sign bit 63, exponent field bits 62 to 52,
fraction field bits 51 to 0. -/
def ofBits (b : Nat) : F64 :=
  let s := decide (b / 2 ^ 63 % 2 = 1)
  let e := b / 2 ^ 52 % 2048
  let f := b % 2 ^ 52
  if h : e < 2047 then fin s ⟨e, h⟩ ⟨f, Nat.mod_lt _ (by decide)⟩
  else if f = 0 then inf s else nan

/-- The C++ decimal floating literal denoting `digits * 10^e10` (for instance
`1e-20` is `ofDecimal 1 (-20)` and `10.0` is `ofDecimal 10 0`), converted to
the nearest binary64 value. -/
def ofDecimal (digits : Nat) (e10 : Int) : F64 :=
  if 0 ≤ e10 then roundNE false (digits * 10 ^ e10.toNat * 2 ^ 1074) 1
  else roundNE false (digits * 2 ^ 1074) (10 ^ (-e10).toNat)

/-- The constant `std::numeric_limits<double>::epsilon()`, that is `2^-52`
(bit pattern `0x3CB0000000000000`). -/
def epsilon : F64 := fin false 971 0

/-- The rational number denoted by the finite binary64 value with sign `neg`,
exponent field `expo` and fraction field `frac`, by the formula of the
standard: `± 2^(expo - 1023) * (1 + frac / 2^52)` for normal numbers and
`± 2^(-1022) * (frac / 2^52)` for subnormal ones. -/
def toRat (neg : Bool) (expo frac : Nat) : ℚ :=
  (if neg then -1 else 1) *
    (if expo = 0 then (2 : ℚ) ^ (-1022 : ℤ) * ((frac : ℚ) / 2 ^ 52)
     else (2 : ℚ) ^ ((expo : ℤ) - 1023) * (1 + (frac : ℚ) / 2 ^ 52))

/-- The value is finite (neither an infinity nor a NaN). -/
def isFinite : F64 → Bool
  | fin _ _ _ => true
  | _ => false

/-- The value is a NaN. -/
def isNaN : F64 → Bool
  | nan => true
  | _ => false

/-- The value is `+0.0` or `-0.0`. -/
def isZero : F64 → Bool
  | fin _ e f => decide (mag e f = 0)
  | _ => false

/-- The sign bit is set (false for NaN). -/
def signBit : F64 → Bool
  | nan => false
  | inf s => s
  | fin s _ _ => s

/-- Spec-level reading of "`|b|` is smaller than machine epsilon": `b` is a
finite number whose absolute value, as a rational, is below `2^-52`. -/
def MagBelowEpsilon : F64 → Prop
  | fin s e f => |toRat s e f| < (2 : ℚ) ^ (-52 : ℤ)
  | _ => False

/-- Spec-level reading of "`|b| >= epsilon`": `b` is an infinity, or a finite
number whose absolute value, as a rational, is at least `2^-52`. -/
def MagAtLeastEpsilon : F64 → Prop
  | nan => False
  | inf _ => True
  | fin s e f => (2 : ℚ) ^ (-52 : ℤ) ≤ |toRat s e f|

end F64

/-! ## `mylib/include/mylib/Calculator.hpp` and `mylib/src/Calculator.cpp` -/

/-- The scoped enumeration `CalculatorError` with underlying type
`std::uint8_t`: a value is any 8-bit code. -/
structure CalculatorError where
  code : Fin 256
deriving DecidableEq

/-- The enumerator `CalculatorError::DivisionByZero` (code 0). -/
def CalculatorError.DivisionByZero : CalculatorError := ⟨0⟩

/-- The enumerator `CalculatorError::InvalidOperation` (code 1). -/
def CalculatorError.InvalidOperation : CalculatorError := ⟨1⟩

/-- The type `std::expected<double, CalculatorError>`: either a value or an
unexpected error. -/
inductive Expected where
  | value (v : F64) : Expected
  | unexpected (e : CalculatorError) : Expected
deriving DecidableEq

/-- The member `std::expected::has_value`. -/
def Expected.has_value : Expected → Bool
  | value _ => true
  | unexpected _ => false

/-- The member `std::expected::and_then`: apply `f` to the value, or pass the
error on without calling `f`. -/
def Expected.and_then (r : Expected) (f : F64 → Expected) : Expected :=
  match r with
  | value v => f v
  | unexpected e => unexpected e

namespace Calculator

open F64

/-- The function `Calculator::add`. -/
def add (a b : F64) : F64 := fadd a b

/-- The function `Calculator::subtract`. -/
def subtract (a b : F64) : F64 := fsub a b

/-- The function `Calculator::multiply`. -/
def multiply (a b : F64) : F64 := fmul a b

/-- The function `Calculator::divide`. -/
def divide (a b : F64) : Expected :=
  if flt (fabs b) epsilon then
    Expected.unexpected CalculatorError.DivisionByZero
  else
    Expected.value (fdiv a b)

/-- The function `Calculator::errorToString`. -/
def errorToString (error : CalculatorError) : String :=
  if error = CalculatorError.DivisionByZero then "Division by zero error"
  else if error = CalculatorError.InvalidOperation then "Invalid operation error"
  else "Unknown error"

end Calculator

/-- The string `s` contains `sub` as a substring. -/
def Contains (s sub : String) : Prop :=
  ∃ pre post : String, s = pre ++ sub ++ post

end mylib


set_option exponentiation.threshold 5000
set_option maxRecDepth 8000

namespace mylib

namespace F64

/-! ## Facts about the binary64 model -/

/-- The integer `units` is the value of the standard, scaled by `2^1074`. -/
theorem toRat_eq_units (s : Bool) (e f : Nat) :
    toRat s e f = (units s e f : ℚ) / 2 ^ 1074 := by
  have hsplit : (2 : ℚ) ^ 1074 = 2 ^ 1022 * 2 ^ 52 := by rw [← pow_add]
  have hA : (0 : ℚ) < 2 ^ 1022 := pow_pos (by norm_num) _
  have hB : (0 : ℚ) < 2 ^ 52 := pow_pos (by norm_num) _
  have hval : (if e = 0 then (2 : ℚ) ^ (-1022 : ℤ) * ((f : ℚ) / 2 ^ 52)
      else (2 : ℚ) ^ ((e : ℤ) - 1023) * (1 + (f : ℚ) / 2 ^ 52))
      = (mag e f : ℚ) / 2 ^ 1074 := by
    unfold mag
    by_cases he : e = 0
    · simp only [he, if_true]
      have h2 : (2 : ℚ) ^ (1022 : ℤ) = 2 ^ 1022 := zpow_ofNat _ _
      rw [hsplit, zpow_neg, h2]
      generalize (2 : ℚ) ^ 1022 = A at *
      generalize (2 : ℚ) ^ 52 = B at *
      field_simp
    · simp only [he, if_false]
      obtain ⟨g, rfl⟩ : ∃ g, e = g + 1 := ⟨e - 1, by omega⟩
      have hexp : (((g + 1 : ℕ) : ℤ) - 1023) = (g : ℤ) - (1022 : ℕ) := by push_cast; ring
      rw [hexp, zpow_sub₀ (by norm_num : (2 : ℚ) ≠ 0), zpow_natCast, zpow_natCast, hsplit]
      simp only [Nat.add_sub_cancel, Nat.cast_mul, Nat.cast_add, Nat.cast_pow, Nat.cast_ofNat]
      generalize (2 : ℚ) ^ 1022 = A at *
      generalize (2 : ℚ) ^ 52 = B at *
      generalize (2 : ℚ) ^ g = G at *
      field_simp
      ring
  unfold toRat units
  rw [hval]
  generalize (2 : ℚ) ^ 1074 = C
  cases s
  · simp
  · simp only [if_true, Int.cast_neg, Int.cast_natCast]
    ring

theorem abs_toRat (s : Bool) (e f : Nat) :
    |toRat s e f| = (mag e f : ℚ) / 2 ^ 1074 := by
  have hpos : (0 : ℚ) < 2 ^ 1074 := pow_pos (by norm_num) _
  have habs : |((units s e f : ℤ) : ℚ)| = (mag e f : ℚ) := by
    unfold units
    cases s
    · simp
    · simp
  rw [toRat_eq_units, abs_div, abs_of_pos hpos, habs]

/-- The operator `<` on finite values compares the rational values. -/
theorem flt_fin_iff (s : Bool) (e : Fin 2047) (f : Fin (2 ^ 52))
    (t : Bool) (g : Fin 2047) (c : Fin (2 ^ 52)) :
    flt (fin s e f) (fin t g c) = true ↔ toRat s e.val f.val < toRat t g.val c.val := by
  have hpos : (0 : ℚ) < 2 ^ 1074 := pow_pos (by norm_num) _
  rw [toRat_eq_units, toRat_eq_units, div_lt_div_iff_of_pos_right hpos, Int.cast_lt]
  simp [flt]

/-- The operator `==` on finite values compares the rational values. -/
theorem feq_fin_iff (s : Bool) (e : Fin 2047) (f : Fin (2 ^ 52))
    (t : Bool) (g : Fin 2047) (c : Fin (2 ^ 52)) :
    feq (fin s e f) (fin t g c) = true ↔ toRat s e.val f.val = toRat t g.val c.val := by
  have hne : (2 : ℚ) ^ 1074 ≠ 0 := pow_ne_zero _ (by norm_num)
  rw [toRat_eq_units, toRat_eq_units, div_left_inj' hne, Int.cast_inj]
  simp [feq]

theorem mag_epsilon : mag 971 0 = 2 ^ 1022 := by
  have h : (971 : ℕ) - 1 = 970 := rfl
  rw [mag, if_neg (by decide), h, Nat.add_zero, ← Nat.pow_add]

theorem two_zpow_neg52 : (2 : ℚ) ^ (-52 : ℤ) = ((2 ^ 1022 : ℕ) : ℚ) / 2 ^ 1074 := by
  have hsplit : (2 : ℚ) ^ 1074 = 2 ^ 1022 * 2 ^ 52 := by rw [← pow_add]
  have h2 : (2 : ℚ) ^ (52 : ℤ) = 2 ^ 52 := zpow_ofNat _ _
  have hA : (0 : ℚ) < 2 ^ 1022 := pow_pos (by norm_num) _
  have hB : (0 : ℚ) < 2 ^ 52 := pow_pos (by norm_num) _
  rw [zpow_neg, h2, hsplit, Nat.cast_pow, Nat.cast_ofNat]
  generalize (2 : ℚ) ^ 1022 = A at *
  generalize (2 : ℚ) ^ 52 = B at *
  field_simp

theorem abs_toRat_lt_iff (s : Bool) (e f : Nat) :
    |toRat s e f| < (2 : ℚ) ^ (-52 : ℤ) ↔ mag e f < 2 ^ 1022 := by
  have hpos : (0 : ℚ) < 2 ^ 1074 := pow_pos (by norm_num) _
  rw [abs_toRat, two_zpow_neg52, div_lt_div_iff_of_pos_right hpos, Nat.cast_lt]

theorem abs_toRat_ge_iff (s : Bool) (e f : Nat) :
    (2 : ℚ) ^ (-52 : ℤ) ≤ |toRat s e f| ↔ 2 ^ 1022 ≤ mag e f := by
  have hpos : (0 : ℚ) < 2 ^ 1074 := pow_pos (by norm_num) _
  rw [abs_toRat, two_zpow_neg52, div_le_div_iff_of_pos_right hpos, Nat.cast_le]

theorem flt_fabs_epsilon (b : F64) :
    flt (fabs b) epsilon = true ↔ MagBelowEpsilon b := by
  cases b with
  | nan => simp [fabs, flt, MagBelowEpsilon]
  | inf s => simp [fabs, flt, epsilon, MagBelowEpsilon]
  | fin s e f =>
    have h1 : flt (fabs (fin s e f)) epsilon
        = decide ((mag e f : ℤ) < (mag 971 0 : ℤ)) := rfl
    rw [h1, mag_epsilon]
    simp only [MagBelowEpsilon, abs_toRat_lt_iff, decide_eq_true_eq, Nat.cast_lt]

theorem fge_fabs_epsilon (b : F64) :
    fge (fabs b) epsilon = true ↔ MagAtLeastEpsilon b := by
  cases b with
  | nan => simp [fabs, fge, flt, feq, epsilon, MagAtLeastEpsilon]
  | inf s => simp [fabs, fge, flt, feq, epsilon, MagAtLeastEpsilon]
  | fin s e f =>
    have h1 : fge (fabs (fin s e f)) epsilon
        = (decide ((mag 971 0 : ℤ) < (mag e f : ℤ))
            || decide ((mag e f : ℤ) = (mag 971 0 : ℤ))) := rfl
    rw [h1, mag_epsilon]
    simp only [MagAtLeastEpsilon, abs_toRat_ge_iff, Bool.or_eq_true, decide_eq_true_eq,
      Nat.cast_lt, Nat.cast_inj]
    omega

/-- On the bit pattern, the magnitude is below `2^-52` exactly when the
exponent field is below 971, the exponent field of `epsilon`. -/
theorem mag_lt_epsilon_iff (e f : Nat) (hf : f < 2 ^ 52) : mag e f < 2 ^ 1022 ↔ e < 971 := by
  unfold mag
  by_cases he : e = 0
  · rw [if_pos he]
    have : 2 ^ 52 ≤ 2 ^ 1022 := Nat.pow_le_pow_right (by decide) (by decide)
    omega
  · rw [if_neg he]
    have hlo : 2 ^ (52 + (e - 1)) ≤ (2 ^ 52 + f) * 2 ^ (e - 1) := by
      rw [Nat.pow_add]
      exact Nat.mul_le_mul_right _ (Nat.le_add_right _ _)
    have hhi : (2 ^ 52 + f) * 2 ^ (e - 1) < 2 ^ (53 + (e - 1)) := by
      rw [Nat.pow_add]
      exact Nat.mul_lt_mul_of_pos_right (by omega) (Nat.pow_pos (by decide))
    constructor
    · intro h
      by_contra hge
      have : 2 ^ 1022 ≤ 2 ^ (52 + (e - 1)) := Nat.pow_le_pow_right (by decide) (by omega)
      omega
    · intro h
      have : 2 ^ (53 + (e - 1)) ≤ 2 ^ 1022 := Nat.pow_le_pow_right (by decide) (by omega)
      omega

theorem magBelowEpsilon_fin_iff (s : Bool) (e : Fin 2047) (f : Fin (2 ^ 52)) :
    MagBelowEpsilon (fin s e f) ↔ e.val < 971 := by
  simp only [MagBelowEpsilon, abs_toRat_lt_iff]
  exact mag_lt_epsilon_iff e.val f.val f.isLt

theorem not_below_of_atLeast {b : F64} (h : MagAtLeastEpsilon b) : ¬ MagBelowEpsilon b := by
  cases b with
  | nan => exact fun h2 => h2
  | inf s => exact fun h2 => h2
  | fin s e f =>
    simp only [MagAtLeastEpsilon, MagBelowEpsilon] at *
    exact not_lt.mpr h

theorem isNaN_ofOrdinal (s : Bool) (o : Nat) : isNaN (ofOrdinal s o) = false := by
  unfold ofOrdinal
  split <;> rfl

theorem isNaN_roundNE (s : Bool) (p q : Nat) : isNaN (roundNE s p q) = false :=
  isNaN_ofOrdinal _ _

theorem feq_self {x : F64} (h : isNaN x = false) : feq x x = true := by
  cases x with
  | nan => simp [isNaN] at h
  | inf s => simp [feq]
  | fin s e f => simp [feq]

theorem fadd_comm (a b : F64) : fadd a b = fadd b a := by
  cases a with
  | nan => cases b <;> rfl
  | inf s =>
    cases b with
    | nan => rfl
    | inf t => cases s <;> cases t <;> rfl
    | fin t g h => rfl
  | fin s e f =>
    cases b with
    | nan => rfl
    | inf t => rfl
    | fin t g h =>
      simp only [fadd]
      rw [Int.add_comm (units t g h) (units s e f), Bool.and_comm t s]

theorem fmul_comm (a b : F64) : fmul a b = fmul b a := by
  cases a with
  | nan => cases b <;> rfl
  | inf s =>
    cases b with
    | nan => rfl
    | inf t => cases s <;> cases t <;> rfl
    | fin t g h => simp only [fmul, Bool.xor_comm]
  | fin s e f =>
    cases b with
    | nan => rfl
    | inf t => simp only [fmul, Bool.xor_comm]
    | fin t g h =>
      simp only [fmul]
      rw [Nat.mul_comm (mag g h) (mag e f), Bool.xor_comm t s]

theorem isNaN_fadd_fin (s : Bool) (e : Fin 2047) (f : Fin (2 ^ 52)) (t : Bool) (g : Fin 2047)
    (h : Fin (2 ^ 52)) : isNaN (fadd (fin s e f) (fin t g h)) = false := by
  simp only [fadd]
  split
  · rfl
  · exact isNaN_roundNE _ _ _

theorem isNaN_fadd {a b : F64} (ha : isFinite a = true) (hb : isFinite b = true) :
    isNaN (fadd a b) = false := by
  cases a with
  | nan => simp [isFinite] at ha
  | inf s => simp [isFinite] at ha
  | fin s e f =>
    cases b with
    | nan => simp [isFinite] at hb
    | inf t => simp [isFinite] at hb
    | fin t g h => exact isNaN_fadd_fin s e f t g h

theorem isFinite_fneg (b : F64) : isFinite (fneg b) = isFinite b := by
  cases b <;> rfl

theorem isNaN_fsub {a b : F64} (ha : isFinite a = true) (hb : isFinite b = true) :
    isNaN (fsub a b) = false :=
  isNaN_fadd ha (by rw [isFinite_fneg]; exact hb)

theorem isNaN_fmul {a b : F64} (ha : isFinite a = true) (hb : isFinite b = true) :
    isNaN (fmul a b) = false := by
  cases a with
  | nan => simp [isFinite] at ha
  | inf s => simp [isFinite] at ha
  | fin s e f =>
    cases b with
    | nan => simp [isFinite] at hb
    | inf t => simp [isFinite] at hb
    | fin t g h => exact isNaN_roundNE _ _ _

theorem roundNE_zero (s : Bool) (q : Nat) (hq : 0 < q) : roundNE s 0 q = fin s 0 0 := by
  simp [roundNE, quantum, nearestEven, ofOrdinal, hq]

theorem fmul_zero (s : Bool) (e : Fin 2047) (f : Fin (2 ^ 52)) (t : Bool) :
    fmul (fin s e f) (fin t 0 0) = fin (xor s t) 0 0 := by
  have h0 : mag ((0 : Fin 2047) : Nat) ((0 : Fin (2 ^ 52)) : Nat) = 0 := rfl
  simp only [fmul, h0, Nat.mul_zero]
  exact roundNE_zero _ _ (Nat.pow_pos (by decide))

theorem fabs_fneg (b : F64) : fabs (fneg b) = fabs b := by
  cases b <;> rfl

theorem fdiv_fneg_fneg (a b : F64) : fdiv (fneg a) (fneg b) = fdiv a b := by
  cases a <;> cases b <;> simp [fdiv, fneg]

theorem ilog2Aux_eq (fuel : Nat) : ∀ n j : Nat, n ≤ fuel → 2 ^ j ≤ n → n < 2 ^ (j + 1) →
    ilog2Aux fuel n = j := by
  induction fuel with
  | zero =>
    intro n j hn hlo _
    have : 0 < 2 ^ j := Nat.pow_pos (by decide)
    omega
  | succ fuel ih =>
    intro n j hn hlo hhi
    unfold ilog2Aux
    by_cases h2 : n < 2
    · rw [if_pos h2]
      cases j with
      | zero => rfl
      | succ i =>
        have : 0 < 2 ^ i := Nat.pow_pos (by decide)
        rw [Nat.pow_succ] at hlo
        omega
    · rw [if_neg h2]
      by_cases h64 : n < 2 ^ 64
      · rw [if_pos h64]
        cases j with
        | zero => simp at hhi; omega
        | succ i =>
          rw [Nat.pow_succ] at hlo hhi
          rw [ih (n / 2) i (by omega) (by omega) (by omega)]
      · rw [if_neg h64]
        have hj : 64 ≤ j := by
          by_contra hlt
          have : 2 ^ (j + 1) ≤ 2 ^ 64 := Nat.pow_le_pow_right (by decide) (by omega)
          omega
        obtain ⟨i, rfl⟩ : ∃ i, j = i + 64 := ⟨j - 64, by omega⟩
        have hp : 0 < 2 ^ 64 := by decide
        have hlo2 : 2 ^ i ≤ n / 2 ^ 64 := by
          rw [Nat.le_div_iff_mul_le hp, ← Nat.pow_add]
          exact hlo
        have hhi2 : n / 2 ^ 64 < 2 ^ (i + 1) := by
          rw [Nat.div_lt_iff_lt_mul hp, ← Nat.pow_add]
          have : i + 1 + 64 = i + 64 + 1 := by omega
          rw [this]
          exact hhi
        have hfuel : n / 2 ^ 64 ≤ fuel := by
          have : n / 2 ^ 64 < n := Nat.div_lt_self (by omega) (by decide)
          omega
        rw [ih (n / 2 ^ 64) i hfuel hlo2 hhi2]

theorem ilog2_eq {n j : Nat} (hlo : 2 ^ j ≤ n) (hhi : n < 2 ^ (j + 1)) : ilog2 n = j :=
  ilog2Aux_eq n n j (Nat.le_refl n) hlo hhi

theorem ofOrdinal_fields (s : Bool) (e : Fin 2047) (f : Fin (2 ^ 52)) :
    ofOrdinal s (e.val * 2 ^ 52 + f.val) = fin s e f := by
  have hf := f.isLt
  have he := e.isLt
  have hlt : e.val * 2 ^ 52 + f.val < 2047 * 2 ^ 52 := by
    have : (e.val + 1) * 2 ^ 52 ≤ 2047 * 2 ^ 52 := Nat.mul_le_mul_right _ (by omega)
    rw [Nat.add_mul] at this
    omega
  unfold ofOrdinal
  rw [dif_pos hlt]
  have h1 : (e.val * 2 ^ 52 + f.val) / 2 ^ 52 = e.val := by
    rw [Nat.add_comm, Nat.add_mul_div_right _ _ (by decide : 0 < 2 ^ 52),
      Nat.div_eq_of_lt hf, Nat.zero_add]
  have h2 : (e.val * 2 ^ 52 + f.val) % 2 ^ 52 = f.val := by
    rw [Nat.add_comm, Nat.add_mul_mod_self_right, Nat.mod_eq_of_lt hf]
  congr 1
  · exact Fin.ext h1
  · exact Fin.ext h2

theorem roundNE_shift (s : Bool) (m k : Nat) (hk : quantum (m * 2 ^ k) 1 = k) :
    roundNE s (m * 2 ^ k) 1 = ofOrdinal s (k * 2 ^ 52 + m) := by
  have hpos : 0 < 2 ^ k := Nat.pow_pos (by decide)
  unfold roundNE
  simp only [hk, nearestEven, Nat.one_mul, Nat.mul_mod_left, Nat.mul_zero, hpos, if_true,
    Nat.mul_div_cancel _ hpos]

/-- Rounding is exact on representable numbers: the magnitude of a finite
binary64 value rounds to that value. -/
theorem roundNE_mag (s : Bool) (e : Fin 2047) (f : Fin (2 ^ 52)) :
    roundNE s (mag e.val f.val) 1 = fin s e f := by
  have hf : f.val < 2 ^ 52 := f.isLt
  rw [← ofOrdinal_fields s e f]
  obtain ⟨e, he⟩ := e
  match e, he with
  | 0, _ =>
    have hm : mag 0 f.val = f.val * 2 ^ 0 := by simp [mag]
    show roundNE s (mag 0 f.val) 1 = ofOrdinal s (0 * 2 ^ 52 + f.val)
    rw [hm]
    refine roundNE_shift s f.val 0 ?_
    unfold quantum
    rw [if_pos]
    simp only [Nat.pow_zero, Nat.mul_one, Nat.div_one]
    omega
  | 1, _ =>
    have hm : mag 1 f.val = (2 ^ 52 + f.val) * 2 ^ 0 := by simp [mag]
    have ho : 1 * 2 ^ 52 + f.val = 0 * 2 ^ 52 + (2 ^ 52 + f.val) := by omega
    show roundNE s (mag 1 f.val) 1 = ofOrdinal s (1 * 2 ^ 52 + f.val)
    rw [hm, ho]
    refine roundNE_shift s _ 0 ?_
    unfold quantum
    rw [if_pos]
    simp only [Nat.pow_zero, Nat.mul_one, Nat.div_one]
    omega
  | g + 2, _ =>
    have hm : mag (g + 2) f.val = (2 ^ 52 + f.val) * 2 ^ (g + 1) := by simp [mag]
    have ho : (g + 2) * 2 ^ 52 + f.val = (g + 1) * 2 ^ 52 + (2 ^ 52 + f.val) := by
      rw [Nat.add_mul (g + 1) 1 (2 ^ 52)]
      omega
    show roundNE s (mag (g + 2) f.val) 1 = ofOrdinal s ((g + 2) * 2 ^ 52 + f.val)
    rw [hm, ho]
    refine roundNE_shift s _ (g + 1) ?_
    have hpos : 0 < 2 ^ (g + 1) := Nat.pow_pos (by decide)
    have hlo : 2 ^ (52 + (g + 1)) ≤ (2 ^ 52 + f.val) * 2 ^ (g + 1) := by
      rw [Nat.pow_add]
      exact Nat.mul_le_mul_right _ (Nat.le_add_right _ _)
    have hhi : (2 ^ 52 + f.val) * 2 ^ (g + 1) < 2 ^ (52 + (g + 1) + 1) := by
      have h53 : 2 ^ (52 + (g + 1) + 1) = 2 ^ 53 * 2 ^ (g + 1) := by
        rw [← Nat.pow_add]
        congr 1
        omega
      rw [h53]
      exact Nat.mul_lt_mul_of_pos_right (by omega) hpos
    have hbig : ¬ (2 ^ 52 + f.val) * 2 ^ (g + 1) / 1 < 2 ^ 53 := by
      rw [Nat.div_one]
      have h1 : 2 ^ 53 ≤ 2 ^ (52 + (g + 1)) := Nat.pow_le_pow_right (by decide) (by omega)
      omega
    unfold quantum
    rw [if_neg hbig, Nat.div_one, ilog2_eq hlo hhi]
    omega

theorem fadd_zero_right (s : Bool) (e : Fin 2047) (f : Fin (2 ^ 52))
    (hnz : mag e.val f.val ≠ 0) : fadd (fin s e f) (fin false 0 0) = fin s e f := by
  have h0 : units false ((0 : Fin 2047) : Nat) ((0 : Fin (2 ^ 52)) : Nat) = 0 := rfl
  have hu : units s e.val f.val ≠ 0 := by
    unfold units
    cases s <;> simp [hnz]
  simp only [fadd, h0, Int.add_zero, hu, if_false]
  have hs : decide (units s e.val f.val < 0) = s := by
    unfold units
    cases s
    · simp
    · simp; omega
  have hn : (units s e.val f.val).natAbs = mag e.val f.val := by
    unfold units
    cases s <;> simp
  rw [hs, hn, roundNE_mag]

theorem ilog2_bounds {n : Nat} (hn : n ≠ 0) : 2 ^ ilog2 n ≤ n ∧ n < 2 ^ (ilog2 n + 1) := by
  have h : ilog2 n = Nat.log2 n := ilog2_eq (Nat.log2_self_le hn) Nat.lt_log2_self
  rw [h]
  exact ⟨Nat.log2_self_le hn, Nat.lt_log2_self⟩

theorem quantum_spec (p q : Nat) :
    (quantum p q = 0 ∧ p / q < 2 ^ 53) ∨
    (1 ≤ quantum p q ∧ 2 ^ (52 + quantum p q) ≤ p / q ∧ p / q < 2 ^ (52 + quantum p q + 1)) := by
  unfold quantum
  by_cases h : p / q < 2 ^ 53
  · exact Or.inl ⟨if_pos h, h⟩
  · right
    dsimp only
    rw [if_neg h]
    have hn : p / q ≠ 0 := by
      intro h0
      rw [h0] at h
      exact h (by decide)
    obtain ⟨hlo, hhi⟩ := ilog2_bounds hn
    have h53 : 53 ≤ ilog2 (p / q) := by
      by_contra hlt
      have : 2 ^ (ilog2 (p / q) + 1) ≤ 2 ^ 53 := Nat.pow_le_pow_right (by decide) (by omega)
      omega
    have hk : 52 + (ilog2 (p / q) - 52) = ilog2 (p / q) := by omega
    rw [hk]
    exact ⟨by omega, hlo, hhi⟩

theorem nearestEven_spec (p d : Nat) :
    (nearestEven p d = p / d ∧ 2 * (p % d) ≤ d ∨
      nearestEven p d = p / d + 1 ∧ d ≤ 2 * (p % d)) ∧
    (2 * (p % d) = d → nearestEven p d % 2 = 0) := by
  unfold nearestEven
  dsimp only
  by_cases h1 : 2 * (p % d) < d
  · rw [if_pos h1]
    exact ⟨Or.inl ⟨rfl, by omega⟩, fun h => by omega⟩
  · rw [if_neg h1]
    by_cases h2 : d < 2 * (p % d)
    · rw [if_pos h2]
      exact ⟨Or.inr ⟨rfl, by omega⟩, fun h => by omega⟩
    · rw [if_neg h2]
      by_cases h3 : p / d % 2 = 0
      · rw [if_pos h3]
        exact ⟨Or.inl ⟨rfl, by omega⟩, fun _ => h3⟩
      · rw [if_neg h3]
        exact ⟨Or.inr ⟨rfl, by omega⟩, fun _ => by omega⟩

theorem sig_bounds (p q : Nat) :
    (quantum p q = 0 ∧ p / (q * 2 ^ quantum p q) < 2 ^ 53) ∨
    (1 ≤ quantum p q ∧ 2 ^ 52 ≤ p / (q * 2 ^ quantum p q) ∧
      p / (q * 2 ^ quantum p q) < 2 ^ 53) := by
  have hpos : 0 < 2 ^ quantum p q := Nat.pow_pos (by decide)
  rw [← Nat.div_div_eq_div_mul]
  rcases quantum_spec p q with ⟨h0, hlt⟩ | ⟨h1, hlo, hhi⟩
  · left
    refine ⟨h0, ?_⟩
    rw [h0, Nat.pow_zero, Nat.div_one]
    exact hlt
  · right
    refine ⟨h1, ?_, ?_⟩
    · rw [Nat.le_div_iff_mul_le hpos, ← Nat.pow_add]
      exact hlo
    · rw [Nat.div_lt_iff_lt_mul hpos, ← Nat.pow_add]
      have : 53 + quantum p q = 52 + quantum p q + 1 := by omega
      rw [this]
      exact hhi

theorem mag_ofOrdinal (k m : Nat)
    (hm : (k = 0 ∧ m ≤ 2 ^ 53) ∨ (1 ≤ k ∧ 2 ^ 52 ≤ m ∧ m ≤ 2 ^ 53)) :
    mag ((k * 2 ^ 52 + m) / 2 ^ 52) ((k * 2 ^ 52 + m) % 2 ^ 52) = m * 2 ^ k := by
  have hp : 0 < 2 ^ 52 := by decide
  by_cases h1 : m < 2 ^ 52
  · have hk : k = 0 := by omega
    subst hk
    have e1 : (0 * 2 ^ 52 + m) / 2 ^ 52 = 0 := by
      rw [Nat.zero_mul, Nat.zero_add]
      exact Nat.div_eq_of_lt h1
    have e2 : (0 * 2 ^ 52 + m) % 2 ^ 52 = m := by
      rw [Nat.zero_mul, Nat.zero_add]
      exact Nat.mod_eq_of_lt h1
    rw [e1, e2]
    simp [mag]
  · by_cases h2 : m < 2 ^ 53
    · have ho : k * 2 ^ 52 + m = (m - 2 ^ 52) + (k + 1) * 2 ^ 52 := by
        rw [Nat.add_mul]
        omega
      have hlt : m - 2 ^ 52 < 2 ^ 52 := by omega
      have e1 : (k * 2 ^ 52 + m) / 2 ^ 52 = k + 1 := by
        rw [ho, Nat.add_mul_div_right _ _ hp, Nat.div_eq_of_lt hlt, Nat.zero_add]
      have e2 : (k * 2 ^ 52 + m) % 2 ^ 52 = m - 2 ^ 52 := by
        rw [ho, Nat.add_mul_mod_self_right, Nat.mod_eq_of_lt hlt]
      have hs : 2 ^ 52 + (m - 2 ^ 52) = m := by omega
      rw [e1, e2, mag, if_neg (Nat.add_one_ne_zero k), Nat.add_sub_cancel, hs]
    · have hm53 : m = 2 ^ 53 := by omega
      have ho : k * 2 ^ 52 + m = 0 + (k + 2) * 2 ^ 52 := by
        rw [hm53, Nat.add_mul]
        omega
      have e1 : (k * 2 ^ 52 + m) / 2 ^ 52 = k + 2 := by
        rw [ho, Nat.add_mul_div_right _ _ hp, Nat.zero_div, Nat.zero_add]
      have e2 : (k * 2 ^ 52 + m) % 2 ^ 52 = 0 := by
        rw [ho, Nat.add_mul_mod_self_right, Nat.zero_mod]
      have hk2 : k + 2 - 1 = k + 1 := by omega
      rw [e1, e2, hm53, mag, if_neg (by omega), hk2, Nat.add_zero, Nat.pow_succ 2 k]
      omega

theorem mag_grid (e f k m0 : Nat) (hf : f < 2 ^ 52) (hk : k = 0 ∨ 2 ^ 52 ≤ m0) :
    mag e f ≤ m0 * 2 ^ k ∨ (m0 + 1) * 2 ^ k ≤ mag e f := by
  have hpk : 0 < 2 ^ k := Nat.pow_pos (by decide)
  by_cases hk0 : k = 0
  · subst hk0
    simp only [Nat.pow_zero, Nat.mul_one]
    omega
  · have hm0 : 2 ^ 52 ≤ m0 := by omega
    have hbig : 2 ^ (52 + k) ≤ m0 * 2 ^ k := by
      rw [Nat.pow_add]
      exact Nat.mul_le_mul_right _ hm0
    by_cases hek : e ≤ k
    · left
      refine Nat.le_trans ?_ hbig
      unfold mag
      by_cases he : e = 0
      · rw [if_pos he]
        have : 2 ^ 52 ≤ 2 ^ (52 + k) := Nat.pow_le_pow_right (by decide) (by omega)
        omega
      · rw [if_neg he]
        have h1 : (2 ^ 52 + f) * 2 ^ (e - 1) ≤ 2 ^ 53 * 2 ^ (e - 1) :=
          Nat.mul_le_mul_right _ (by omega)
        have h2 : 2 ^ 53 * 2 ^ (e - 1) = 2 ^ (52 + e) := by
          rw [← Nat.pow_add]
          congr 1
          omega
        have h3 : 2 ^ (52 + e) ≤ 2 ^ (52 + k) := Nat.pow_le_pow_right (by decide) (by omega)
        omega
    · have he : e ≠ 0 := by omega
      have hsplit : mag e f = (2 ^ 52 + f) * 2 ^ (e - 1 - k) * 2 ^ k := by
        unfold mag
        rw [if_neg he, Nat.mul_assoc, ← Nat.pow_add]
        congr 2
        omega
      rw [hsplit]
      by_cases hc : (2 ^ 52 + f) * 2 ^ (e - 1 - k) ≤ m0
      · exact Or.inl (Nat.mul_le_mul_right _ hc)
      · exact Or.inr (Nat.mul_le_mul_right _ (by omega))

/-- Correctness of the rounding: when `roundNE s p q` is finite it has the
sign `s`, no binary64 magnitude is closer to `p / q` than its own (distances
are scaled by `q`), and when another magnitude is exactly as close, the
fraction field of the result is even. -/
theorem roundNE_nearest (s : Bool) (p q : Nat) (hq : 0 < q)
    (t : Bool) (e : Fin 2047) (f : Fin (2 ^ 52)) (h : roundNE s p q = fin t e f) :
    t = s ∧
    (∀ (g : Fin 2047) (c : Fin (2 ^ 52)),
      |((mag e.val f.val * q : ℕ) : ℤ) - (p : ℤ)|
        ≤ |((mag g.val c.val * q : ℕ) : ℤ) - (p : ℤ)|) ∧
    (∀ (g : Fin 2047) (c : Fin (2 ^ 52)), mag g.val c.val ≠ mag e.val f.val →
      |((mag e.val f.val * q : ℕ) : ℤ) - (p : ℤ)|
        = |((mag g.val c.val * q : ℕ) : ℤ) - (p : ℤ)| →
      f.val % 2 = 0) := by
  have hd : 0 < q * 2 ^ quantum p q := Nat.mul_pos hq (Nat.pow_pos (by decide))
  have hr : p % (q * 2 ^ quantum p q) < q * 2 ^ quantum p q := Nat.mod_lt _ hd
  have hp : (q * 2 ^ quantum p q) * (p / (q * 2 ^ quantum p q))
      + p % (q * 2 ^ quantum p q) = p := Nat.div_add_mod _ _
  obtain ⟨hne, htie⟩ := nearestEven_spec p (q * 2 ^ quantum p q)
  have hsig := sig_bounds p q
  unfold roundNE at h
  dsimp only at h
  generalize hk : quantum p q = k at *
  generalize hm : nearestEven p (q * 2 ^ k) = m at *
  generalize hm0 : p / (q * 2 ^ k) = m0 at *
  generalize hrr : p % (q * 2 ^ k) = r at *
  have hmb : (k = 0 ∧ m ≤ 2 ^ 53) ∨ (1 ≤ k ∧ 2 ^ 52 ≤ m ∧ m ≤ 2 ^ 53) := by omega
  have hgk : k = 0 ∨ 2 ^ 52 ≤ m0 := by omega
  unfold ofOrdinal at h
  by_cases ho : k * 2 ^ 52 + m < 2047 * 2 ^ 52
  · rw [dif_pos ho] at h
    injection h with hs he hf
    have hev : e.val = (k * 2 ^ 52 + m) / 2 ^ 52 := by rw [← he]
    have hfv : f.val = (k * 2 ^ 52 + m) % 2 ^ 52 := by rw [← hf]
    have hmag : mag e.val f.val = m * 2 ^ k := by
      rw [hev, hfv]
      exact mag_ofOrdinal k m hmb
    have hmq : mag e.val f.val * q = m * (q * 2 ^ k) := by
      rw [hmag, Nat.mul_assoc, Nat.mul_comm (2 ^ k) q]
    have hpar : f.val % 2 = m % 2 := by
      rw [hfv]
      omega
    have hgrid : ∀ (g : Fin 2047) (c : Fin (2 ^ 52)),
        mag g.val c.val * q ≤ (q * 2 ^ k) * m0
          ∨ (q * 2 ^ k) * m0 + q * 2 ^ k ≤ mag g.val c.val * q := by
      intro g c
      rcases mag_grid g.val c.val k m0 c.isLt hgk with hle | hge
      · left
        have := Nat.mul_le_mul_right q hle
        rw [Nat.mul_assoc, Nat.mul_comm (2 ^ k) q, Nat.mul_comm m0] at this
        exact this
      · right
        have := Nat.mul_le_mul_right q hge
        rw [Nat.mul_assoc, Nat.mul_comm (2 ^ k) q, Nat.add_mul, Nat.one_mul,
          Nat.mul_comm m0] at this
        exact this
    have hmd : m * (q * 2 ^ k) = (q * 2 ^ k) * m0 ∧ 2 * r ≤ q * 2 ^ k
        ∨ m * (q * 2 ^ k) = (q * 2 ^ k) * m0 + q * 2 ^ k ∧ q * 2 ^ k ≤ 2 * r := by
      rcases hne with ⟨h1, h2⟩ | ⟨h1, h2⟩
      · exact Or.inl ⟨by rw [h1, Nat.mul_comm], h2⟩
      · exact Or.inr ⟨by rw [h1, Nat.add_mul, Nat.one_mul, Nat.mul_comm m0], h2⟩
    refine ⟨hs.symm, fun g c => ?_, fun g c hne2 heq => ?_⟩
    · have hg := hgrid g c
      rw [hmq]
      generalize mag g.val c.val * q = V at *
      generalize (q * 2 ^ k) * m0 = A at *
      generalize m * (q * 2 ^ k) = M at *
      generalize q * 2 ^ k = d at *
      simp only [Int.abs_eq_natAbs]
      omega
    · have hg := hgrid g c
      have hVne : mag g.val c.val * q ≠ m * (q * 2 ^ k) := by
        rw [← hmq]
        intro hcontra
        exact hne2 (Nat.eq_of_mul_eq_mul_right hq hcontra)
      rw [hmq] at heq
      rw [hpar]
      apply htie
      generalize mag g.val c.val * q = V at *
      generalize (q * 2 ^ k) * m0 = A at *
      generalize m * (q * 2 ^ k) = M at *
      generalize q * 2 ^ k = d at *
      simp only [Int.abs_eq_natAbs] at heq
      omega
  · rw [dif_neg ho] at h
    cases h

/-- Overflow happens exactly from the midpoint between the largest finite
magnitude `(2^53 - 1) * 2^2045` and `2^53 * 2^2045` on, that is from
`(2^54 - 1) * 2^2044` units. -/
theorem roundNE_eq_inf_iff (s : Bool) (p q : Nat) (hq : 0 < q) :
    roundNE s p q = inf s ↔ (2 ^ 54 - 1) * 2 ^ 2044 * q ≤ p := by
  have hd : 0 < q * 2 ^ quantum p q := Nat.mul_pos hq (Nat.pow_pos (by decide))
  have hr : p % (q * 2 ^ quantum p q) < q * 2 ^ quantum p q := Nat.mod_lt _ hd
  have hp : (q * 2 ^ quantum p q) * (p / (q * 2 ^ quantum p q))
      + p % (q * 2 ^ quantum p q) = p := Nat.div_add_mod _ _
  obtain ⟨hne, htie⟩ := nearestEven_spec p (q * 2 ^ quantum p q)
  have hsig := sig_bounds p q
  have hqs := quantum_spec p q
  have hT : (2 ^ 54 - 1) * 2 ^ 2044 < 2 ^ 2098 := by decide
  have hT2 : 2 ^ 2097 ≤ (2 ^ 54 - 1) * 2 ^ 2044 := by decide
  have hinf : roundNE s p q = inf s ↔
      ¬ (quantum p q * 2 ^ 52 + nearestEven p (q * 2 ^ quantum p q) < 2047 * 2 ^ 52) := by
    unfold roundNE ofOrdinal
    dsimp only
    constructor
    · intro h ho
      rw [dif_pos ho] at h
      cases h
    · intro ho
      rw [dif_neg ho]
  rw [hinf]
  generalize hk : quantum p q = k at *
  generalize hm : nearestEven p (q * 2 ^ k) = m at *
  generalize hm0 : p / (q * 2 ^ k) = m0 at *
  generalize hrr : p % (q * 2 ^ k) = r at *
  have hdiv : p / q * q ≤ p := Nat.div_mul_le_self p q
  constructor
  · intro ho
    have hk45 : 2045 ≤ k := by omega
    by_cases hk46 : 2046 ≤ k
    · have h1 : 2 ^ 2098 ≤ 2 ^ (52 + k) := Nat.pow_le_pow_right (by decide) (by omega)
      have h2 : (2 ^ 54 - 1) * 2 ^ 2044 ≤ p / q := by omega
      exact Nat.le_trans (Nat.mul_le_mul_right q h2) hdiv
    · have hk' : k = 2045 := by omega
      subst hk'
      have hm0v : m0 = 2 ^ 53 - 1 := by omega
      have hdr : q * 2 ^ 2045 ≤ 2 * r := by omega
      subst hm0v
      have hsplit : (2 ^ 54 - 1) * 2 ^ 2044 * q * 2
          = (q * 2 ^ 2045) * (2 ^ 53 - 1) * 2 + q * 2 ^ 2045 := by
        have e1 : (2 : Nat) ^ 2045 = 2 ^ 2044 * 2 := by decide
        rw [e1]
        generalize (2 : Nat) ^ 2044 = X
        ring_nf
      omega
  · intro hge ho
    have hn : (2 ^ 54 - 1) * 2 ^ 2044 ≤ p / q := (Nat.le_div_iff_mul_le hq).mpr hge
    have hk1 : 1 ≤ k := by
      rcases hqs with ⟨_, hlt⟩ | ⟨h1, _, _⟩
      · have : 2 ^ 53 ≤ 2 ^ 2097 := by decide
        omega
      · exact h1
    have hk45 : 2045 ≤ k := by
      by_contra hlt
      have h1 : 2 ^ (52 + k + 1) ≤ 2 ^ 2097 := Nat.pow_le_pow_right (by decide) (by omega)
      omega
    have hk' : k = 2045 := by omega
    subst hk'
    have hm0lo : 2 ^ 53 - 1 ≤ m0 := by
      rw [← hm0, Nat.le_div_iff_mul_le hd]
      have hsplit : (2 ^ 53 - 1) * (q * 2 ^ 2045) ≤ (2 ^ 54 - 1) * 2 ^ 2044 * q := by
        have e1 : (2 : Nat) ^ 2045 = 2 ^ 2044 * 2 := by decide
        rw [e1]
        generalize (2 : Nat) ^ 2044 = X
        have : (2 ^ 53 - 1) * (q * (X * 2)) = (2 ^ 54 - 2) * (X * q) := by ring_nf
        rw [this, Nat.mul_assoc]
        exact Nat.mul_le_mul_right _ (by decide)
      omega
    have hm0v : m0 = 2 ^ 53 - 1 := by omega
    subst hm0v
    have hsplit : (2 ^ 54 - 1) * 2 ^ 2044 * q * 2
        = (q * 2 ^ 2045) * (2 ^ 53 - 1) * 2 + q * 2 ^ 2045 := by
      have e1 : (2 : Nat) ^ 2045 = 2 ^ 2044 * 2 := by decide
      rw [e1]
      generalize (2 : Nat) ^ 2044 = X
      ring_nf
    have hdr : q * 2 ^ 2045 ≤ 2 * r := by omega
    have hmv : m = 2 ^ 53 := by
      rcases hne with ⟨h1, h2⟩ | ⟨h1, _⟩
      · have hteq : 2 * r = q * 2 ^ 2045 := by omega
        have := htie hteq
        omega
      · omega
    omega

/-! ## Checks of the model on known binary64 results -/

theorem toRat_epsilon : toRat false 971 0 = (2 : ℚ) ^ (-52 : ℤ) := by
  norm_num [toRat]

theorem epsilon_bits : epsilon = ofBits 0x3CB0000000000000 := by decide

theorem epsilon_is_gap_above_one :
    fsub (ofBits 0x3FF0000000000001) (ofDecimal 1 0) = epsilon := by decide

theorem ofDecimal_ten : ofDecimal 10 0 = ofBits 0x4024000000000000 := by decide

theorem ofDecimal_1em20 : ofDecimal 1 (-20) = ofBits 0x3BC79CA10C924223 := by decide

theorem fadd_tenth_fifth :
    fadd (ofDecimal 1 (-1)) (ofDecimal 2 (-1)) = ofBits 0x3FD3333333333334 := by decide

theorem fdiv_one_three :
    fdiv (ofDecimal 1 0) (ofDecimal 3 0) = ofBits 0x3FD5555555555555 := by decide

theorem fadd_tie_rounds_down_to_even :
    fadd (ofBits 0x4340000000000000) (ofDecimal 1 0) = ofBits 0x4340000000000000 := by decide

theorem fadd_tie_rounds_up_to_even :
    fadd (ofBits 0x4340000000000001) (ofDecimal 1 0) = ofBits 0x4340000000000002 := by decide

theorem fadd_overflow :
    fadd (ofBits 0x7FEFFFFFFFFFFFFF) (ofBits 0x7C90000000000000) = inf false ∧
    fadd (ofBits 0x7FEFFFFFFFFFFFFF) (ofBits 0x7C8FFFFFFFFFFFFF)
      = ofBits 0x7FEFFFFFFFFFFFFF := by decide

theorem fdiv_underflow :
    fdiv (ofBits 1) (ofDecimal 2 0) = fin false 0 0 ∧
    fdiv (ofBits 3) (ofDecimal 2 0) = ofBits 2 := by decide

end F64

open F64 Calculator

/-! ## Literals and values used by the tests -/

theorem ofDecimal_zero : ofDecimal 0 0 = fin false 0 0 := by decide

theorem divide_of_below {b : F64} (h : MagBelowEpsilon b) (a : F64) :
    divide a b = Expected.unexpected CalculatorError.DivisionByZero := by
  unfold divide
  rw [if_pos ((flt_fabs_epsilon b).mpr h)]

theorem divide_of_not_below {b : F64} (h : ¬ MagBelowEpsilon b) (a : F64) :
    divide a b = Expected.value (fdiv a b) := by
  unfold divide
  rw [if_neg (fun hlt => h ((flt_fabs_epsilon b).mp hlt))]

/-- The results the tests of `tests/test_calculator.cpp` expect (there up to a
tolerance of `100 * epsilon`) are the exact results of the model. -/
theorem test_calculator_values :
    add (ofDecimal 2 0) (ofDecimal 3 0) = ofDecimal 5 0 ∧
    add (fneg (ofDecimal 2 0)) (fneg (ofDecimal 3 0)) = fneg (ofDecimal 5 0) ∧
    add (ofDecimal 5 0) (fneg (ofDecimal 3 0)) = ofDecimal 2 0 ∧
    subtract (ofDecimal 5 0) (ofDecimal 3 0) = ofDecimal 2 0 ∧
    subtract (fneg (ofDecimal 2 0)) (fneg (ofDecimal 3 0)) = ofDecimal 1 0 ∧
    multiply (ofDecimal 4 0) (ofDecimal 3 0) = ofDecimal 12 0 ∧
    multiply (ofDecimal 5 0) (ofDecimal 0 0) = ofDecimal 0 0 ∧
    multiply (fneg (ofDecimal 4 0)) (fneg (ofDecimal 3 0)) = ofDecimal 12 0 ∧
    divide (ofDecimal 10 0) (ofDecimal 2 0) = Expected.value (ofDecimal 5 0) ∧
    divide (ofDecimal 100 0) (ofDecimal 5 0) = Expected.value (ofDecimal 20 0) ∧
    divide (ofDecimal 20 0) (ofDecimal 2 0) = Expected.value (ofDecimal 10 0) := by
  decide

/-! ## The claims -/

/-- C1: `divide a b` is a success exactly when `|b|` is not smaller than
machine epsilon `2^-52`, and every failure carries `DivisionByZero`; the test
is on the magnitude, so both `0.0` and the nonzero `1e-20` fail
(`divide(10.0, 0.0)` and `divide(10.0, 1e-20)`). -/
theorem divide_has_value_iff_not_below_epsilon :
    (∀ a b : F64,
      ((divide a b).has_value = true ↔ ¬ MagBelowEpsilon b) ∧
      ((divide a b).has_value = false →
        divide a b = Expected.unexpected CalculatorError.DivisionByZero)) ∧
    divide (ofDecimal 10 0) (ofDecimal 0 0)
      = Expected.unexpected CalculatorError.DivisionByZero ∧
    divide (ofDecimal 10 0) (ofDecimal 1 (-20))
      = Expected.unexpected CalculatorError.DivisionByZero ∧
    isZero (ofDecimal 0 0) = true ∧ isZero (ofDecimal 1 (-20)) = false := by
  refine ⟨fun a b => ?_, by decide, by decide, by decide, by decide⟩
  by_cases h : MagBelowEpsilon b
  · rw [divide_of_below h a]
    exact ⟨by simp [Expected.has_value, h], fun _ => rfl⟩
  · rw [divide_of_not_below h a]
    exact ⟨by simp [Expected.has_value, h], by simp [Expected.has_value]⟩

/-- Witness for C1: the failure branch taken at `divide(NaN, -0.0)`. -/
theorem divide_has_value_iff_not_below_epsilon_witness :
    (divide nan (fin true 0 0)).has_value = false ∧
    divide nan (fin true 0 0) = Expected.unexpected CalculatorError.DivisionByZero :=
  ⟨by decide,
   (divide_has_value_iff_not_below_epsilon.1 nan (fin true 0 0)).2 (by decide)⟩

/-- C2: whenever `|b| >= epsilon`, `divide a b` is a success carrying the
native quotient `a / b`; `divide(10.0, 2.0)` and `divide(-10.0, -2.0)` both
carry `5.0`. -/
theorem divide_value_of_atLeast_epsilon :
    (∀ a b : F64, MagAtLeastEpsilon b →
      (divide a b).has_value = true ∧ divide a b = Expected.value (fdiv a b)) ∧
    divide (ofDecimal 10 0) (ofDecimal 2 0) = Expected.value (ofDecimal 5 0) ∧
    divide (fneg (ofDecimal 10 0)) (fneg (ofDecimal 2 0))
      = Expected.value (ofDecimal 5 0) := by
  refine ⟨fun a b h => ?_, by decide, by decide⟩
  rw [divide_of_not_below (not_below_of_atLeast h) a]
  exact ⟨rfl, rfl⟩

/-- Witness for C2: `|3.0| >= epsilon`, so `divide(10.0, 3.0)` carries
`10.0 / 3.0`. -/
theorem divide_value_of_atLeast_epsilon_witness :
    MagAtLeastEpsilon (ofDecimal 3 0) ∧
    divide (ofDecimal 10 0) (ofDecimal 3 0)
      = Expected.value (fdiv (ofDecimal 10 0) (ofDecimal 3 0)) :=
  ⟨(fge_fabs_epsilon _).mp (by decide),
   (divide_value_of_atLeast_epsilon.1 (ofDecimal 10 0) (ofDecimal 3 0)
      ((fge_fabs_epsilon _).mp (by decide))).2⟩

/-- C3: `errorToString(DivisionByZero)` is non-empty and contains "zero";
`errorToString(InvalidOperation)` is non-empty and contains "Invalid". -/
theorem errorToString_named_errors :
    errorToString CalculatorError.DivisionByZero ≠ "" ∧
    Contains (errorToString CalculatorError.DivisionByZero) "zero" ∧
    errorToString CalculatorError.InvalidOperation ≠ "" ∧
    Contains (errorToString CalculatorError.InvalidOperation) "Invalid" :=
  ⟨by decide, ⟨"Division by ", " error", by decide⟩,
   by decide, ⟨"", " operation error", by decide⟩⟩

/-- C4: for finite `a` and `b`, `add`, `subtract` and `multiply` return the
native `a + b`, `a - b` and `a * b`: the very same value, which also compares
equal to it under `==`. -/
theorem add_subtract_multiply_native (a b : F64)
    (ha : isFinite a = true) (hb : isFinite b = true) :
    (add a b = fadd a b ∧ feq (add a b) (fadd a b) = true) ∧
    (subtract a b = fsub a b ∧ feq (subtract a b) (fsub a b) = true) ∧
    (multiply a b = fmul a b ∧ feq (multiply a b) (fmul a b) = true) :=
  ⟨⟨rfl, feq_self (isNaN_fadd ha hb)⟩,
   ⟨rfl, feq_self (isNaN_fsub ha hb)⟩,
   ⟨rfl, feq_self (isNaN_fmul ha hb)⟩⟩

/-- Witness for C4 at the operands of the demonstration program, `10.0` and
`3.0`. -/
theorem add_subtract_multiply_native_witness :
    (add (ofDecimal 10 0) (ofDecimal 3 0) = fadd (ofDecimal 10 0) (ofDecimal 3 0) ∧
      feq (add (ofDecimal 10 0) (ofDecimal 3 0))
        (fadd (ofDecimal 10 0) (ofDecimal 3 0)) = true) ∧
    (subtract (ofDecimal 10 0) (ofDecimal 3 0) = fsub (ofDecimal 10 0) (ofDecimal 3 0) ∧
      feq (subtract (ofDecimal 10 0) (ofDecimal 3 0))
        (fsub (ofDecimal 10 0) (ofDecimal 3 0)) = true) ∧
    (multiply (ofDecimal 10 0) (ofDecimal 3 0) = fmul (ofDecimal 10 0) (ofDecimal 3 0) ∧
      feq (multiply (ofDecimal 10 0) (ofDecimal 3 0))
        (fmul (ofDecimal 10 0) (ofDecimal 3 0)) = true) :=
  add_subtract_multiply_native (ofDecimal 10 0) (ofDecimal 3 0) (by decide) (by decide)

/-- C5: `add` and `multiply` are commutative on finite operands, under `==`
(and the two results are the same value). -/
theorem add_multiply_commutative (a b : F64)
    (ha : isFinite a = true) (hb : isFinite b = true) :
    (feq (add a b) (add b a) = true ∧ add a b = add b a) ∧
    (feq (multiply a b) (multiply b a) = true ∧ multiply a b = multiply b a) := by
  have h1 : add a b = add b a := fadd_comm a b
  have h2 : multiply a b = multiply b a := fmul_comm a b
  refine ⟨⟨?_, h1⟩, ⟨?_, h2⟩⟩
  · rw [← h1]; exact feq_self (isNaN_fadd ha hb)
  · rw [← h2]; exact feq_self (isNaN_fmul ha hb)

/-- Witness for C5 at `10.0` and `3.0`. -/
theorem add_multiply_commutative_witness :
    (feq (add (ofDecimal 10 0) (ofDecimal 3 0)) (add (ofDecimal 3 0) (ofDecimal 10 0)) = true ∧
      add (ofDecimal 10 0) (ofDecimal 3 0) = add (ofDecimal 3 0) (ofDecimal 10 0)) ∧
    (feq (multiply (ofDecimal 10 0) (ofDecimal 3 0))
        (multiply (ofDecimal 3 0) (ofDecimal 10 0)) = true ∧
      multiply (ofDecimal 10 0) (ofDecimal 3 0)
        = multiply (ofDecimal 3 0) (ofDecimal 10 0)) :=
  add_multiply_commutative (ofDecimal 10 0) (ofDecimal 3 0) (by decide) (by decide)

/-- C6: for every finite nonzero `x`, `multiply(x, 0.0) == 0.0`; the product
is `+0.0` for positive `x` and `-0.0` for negative `x`, and `-0.0 == 0.0`. -/
theorem multiply_by_zero (x : F64) (hfin : isFinite x = true) (hnz : isZero x = false) :
    feq (multiply x (ofDecimal 0 0)) (ofDecimal 0 0) = true ∧
    multiply x (ofDecimal 0 0) = fin (signBit x) 0 0 ∧
    feq (fin true 0 0) (ofDecimal 0 0) = true := by
  rw [ofDecimal_zero]
  cases x with
  | nan => simp [isFinite] at hfin
  | inf s => simp [isFinite] at hfin
  | fin s e f =>
    have h : multiply (fin s e f) (fin false 0 0) = fin s 0 0 := by
      show fmul (fin s e f) (fin false 0 0) = fin s 0 0
      rw [fmul_zero]; simp
    rw [h]
    refine ⟨?_, rfl, by decide⟩
    cases s <;> decide

/-- Witness for C6: `multiply(5.0, 0.0)` and `multiply(-5.0, 0.0)`. -/
theorem multiply_by_zero_witness :
    (feq (multiply (ofDecimal 5 0) (ofDecimal 0 0)) (ofDecimal 0 0) = true ∧
      multiply (ofDecimal 5 0) (ofDecimal 0 0) = fin false 0 0) ∧
    (feq (multiply (fneg (ofDecimal 5 0)) (ofDecimal 0 0)) (ofDecimal 0 0) = true ∧
      multiply (fneg (ofDecimal 5 0)) (ofDecimal 0 0) = fin true 0 0) :=
  ⟨⟨(multiply_by_zero (ofDecimal 5 0) (by decide) (by decide)).1,
    (multiply_by_zero (ofDecimal 5 0) (by decide) (by decide)).2.1⟩,
   ⟨(multiply_by_zero (fneg (ofDecimal 5 0)) (by decide) (by decide)).1,
    (multiply_by_zero (fneg (ofDecimal 5 0)) (by decide) (by decide)).2.1⟩⟩

/-- C7: chaining `divide(a, b)` into `divide(_, c)` with `and_then` gives a
success carrying `(a / b) / c` when `|b| >= epsilon` and `|c| >= epsilon`, and
fails with `DivisionByZero` whatever the continuation is when `|b| < epsilon`;
`divide(100.0, 5.0)` is `20.0` and chained with `divide(_, 2.0)` is `10.0`. -/
theorem divide_and_then_chain :
    (∀ a b c : F64, MagAtLeastEpsilon b → MagAtLeastEpsilon c →
      (divide a b).and_then (fun val => divide val c)
        = Expected.value (fdiv (fdiv a b) c)) ∧
    (∀ (a b : F64) (k : F64 → Expected), MagBelowEpsilon b →
      (divide a b).and_then k = Expected.unexpected CalculatorError.DivisionByZero) ∧
    divide (ofDecimal 100 0) (ofDecimal 5 0) = Expected.value (ofDecimal 20 0) ∧
    (divide (ofDecimal 100 0) (ofDecimal 5 0)).and_then
        (fun val => divide val (ofDecimal 2 0))
      = Expected.value (ofDecimal 10 0) := by
  refine ⟨fun a b c hb hc => ?_, fun a b k hb => ?_, by decide, by decide⟩
  · rw [divide_of_not_below (not_below_of_atLeast hb) a]
    show divide (fdiv a b) c = _
    rw [divide_of_not_below (not_below_of_atLeast hc)]
  · rw [divide_of_below hb a]
    rfl

/-- Witness for C7: the chain `divide(100.0, 5.0)` then `divide(_, 2.0)`, and
the chain that starts at `divide(100.0, 1e-20)`. -/
theorem divide_and_then_chain_witness :
    (divide (ofDecimal 100 0) (ofDecimal 5 0)).and_then
        (fun val => divide val (ofDecimal 2 0))
      = Expected.value (fdiv (fdiv (ofDecimal 100 0) (ofDecimal 5 0)) (ofDecimal 2 0)) ∧
    (divide (ofDecimal 100 0) (ofDecimal 1 (-20))).and_then
        (fun val => divide val (ofDecimal 2 0))
      = Expected.unexpected CalculatorError.DivisionByZero :=
  ⟨divide_and_then_chain.1 _ _ _ ((fge_fabs_epsilon _).mp (by decide))
     ((fge_fabs_epsilon _).mp (by decide)),
   divide_and_then_chain.2.1 _ _ _ ((flt_fabs_epsilon _).mp (by decide))⟩

/-- C8: whether `divide` succeeds does not depend on the numerator (zero,
infinite and NaN numerators included), and two failures for the same
denominator carry the same error. -/
theorem divide_outcome_independent_of_numerator (b a1 a2 : F64) :
    ((divide a1 b).has_value = true ↔ (divide a2 b).has_value = true) ∧
    (∀ e1 e2 : CalculatorError,
      divide a1 b = Expected.unexpected e1 → divide a2 b = Expected.unexpected e2 →
      e1 = e2) := by
  by_cases h : MagBelowEpsilon b
  · rw [divide_of_below h a1, divide_of_below h a2]
    refine ⟨Iff.rfl, fun e1 e2 h1 h2 => ?_⟩
    injection h1 with h1
    injection h2 with h2
    rw [← h1, ← h2]
  · rw [divide_of_not_below h a1, divide_of_not_below h a2]
    refine ⟨Iff.rfl, fun e1 e2 h1 _ => ?_⟩
    cases h1

/-- Witness for C8: a NaN and an infinite numerator over the denominator
`0.0` fail with the same error. -/
theorem divide_outcome_independent_of_numerator_witness :
    divide nan (ofDecimal 0 0) = Expected.unexpected CalculatorError.DivisionByZero ∧
    divide (inf false) (ofDecimal 0 0)
      = Expected.unexpected CalculatorError.DivisionByZero ∧
    CalculatorError.DivisionByZero = CalculatorError.DivisionByZero :=
  ⟨by decide, by decide,
   (divide_outcome_independent_of_numerator (ofDecimal 0 0) nan (inf false)).2
     _ _ (by decide) (by decide)⟩

/-- C9: `errorToString` is total over the 8-bit codes of `CalculatorError`:
every code other than `DivisionByZero` (0) and `InvalidOperation` (1) gives
exactly "Unknown error", and every code gives one of the three strings. -/
theorem errorToString_total :
    (CalculatorError.DivisionByZero.code = 0 ∧ CalculatorError.InvalidOperation.code = 1) ∧
    (∀ e : CalculatorError, e.code ≠ 0 → e.code ≠ 1 →
      errorToString e = "Unknown error") ∧
    (∀ e : CalculatorError,
      errorToString e = "Division by zero error" ∨
      errorToString e = "Invalid operation error" ∨
      errorToString e = "Unknown error") := by
  refine ⟨⟨rfl, rfl⟩, fun e h0 h1 => ?_, fun e => ?_⟩
  · have n0 : e ≠ CalculatorError.DivisionByZero := fun h => h0 (by rw [h]; rfl)
    have n1 : e ≠ CalculatorError.InvalidOperation := fun h => h1 (by rw [h]; rfl)
    simp [errorToString, n0, n1]
  · unfold errorToString
    split
    · exact Or.inl rfl
    · split
      · exact Or.inr (Or.inl rfl)
      · exact Or.inr (Or.inr rfl)

/-- Witness for C9: the codes 2 and 255. -/
theorem errorToString_total_witness :
    errorToString ⟨2⟩ = "Unknown error" ∧ errorToString ⟨255⟩ = "Unknown error" :=
  ⟨errorToString_total.2.1 ⟨2⟩ (by decide) (by decide),
   errorToString_total.2.1 ⟨255⟩ (by decide) (by decide)⟩

/-- C10: `divide(a, -b)` succeeds exactly when `divide(a, b)` does, and for
`|b| >= epsilon` and a non-NaN `a`, `divide(-a, -b)` carries the same value as
`divide(a, b)`. -/
theorem divide_sign_symmetric :
    (∀ a b : F64, (divide a (fneg b)).has_value = true ↔ (divide a b).has_value = true) ∧
    (∀ a b : F64, MagAtLeastEpsilon b → isNaN a = false →
      (divide a b).has_value = true ∧ divide (fneg a) (fneg b) = divide a b) := by
  refine ⟨fun a b => ?_, fun a b hb _ => ?_⟩
  · unfold divide
    rw [fabs_fneg]
    by_cases h : flt (fabs b) epsilon = true
    · rw [if_pos h, if_pos h]
    · rw [if_neg h, if_neg h]
      exact Iff.rfl
  · have h : ¬ flt (fabs b) epsilon = true :=
      fun hlt => not_below_of_atLeast hb ((flt_fabs_epsilon b).mp hlt)
    have e1 : divide a b = Expected.value (fdiv a b) :=
      divide_of_not_below (not_below_of_atLeast hb) a
    have e2 : divide (fneg a) (fneg b) = Expected.value (fdiv a b) := by
      unfold divide
      rw [fabs_fneg, if_neg h, fdiv_fneg_fneg]
    rw [e1, e2]
    exact ⟨rfl, rfl⟩

/-- Witness for C10: `divide(-10.0, -2.0)` and `divide(10.0, 2.0)` carry the
same value. -/
theorem divide_sign_symmetric_witness :
    divide (fneg (ofDecimal 10 0)) (fneg (ofDecimal 2 0))
      = divide (ofDecimal 10 0) (ofDecimal 2 0) :=
  (divide_sign_symmetric.2 (ofDecimal 10 0) (ofDecimal 2 0)
    ((fge_fabs_epsilon _).mp (by decide)) (by decide)).2

end mylib
